import Mathlib

/-!
Verification of the `mdweb` search-indexing engine (`indexer.js`).

Text is modelled as `List Char` (a JS string), modification times as `Int`
(JS numbers used only for equality tests), and the in-memory index
(`class FileIndex`) as a structure of association lists mirroring the
JS `Map`s and arrays.  File-system reads are modelled as an explicit
`List Char → Option (List Char)` function (`none` = the read throws).
-/

/-- One value of the `files` map: `filepath -> {filename, content, mtime}`
(indexer.js line 10). -/
structure FileData where
  filename : List Char
  content : List Char
  mtime : Int
deriving DecidableEq

/-- One element of the ordered `filesList` array: `{path, name}`
(indexer.js lines 12 and 18). -/
structure FileRef where
  path : List Char
  name : List Char
deriving DecidableEq

/-- The in-memory inverted index (`class FileIndex`, indexer.js lines 8-13):
`files` is the path-keyed document map, `wordIndex` the posting list
(word -> set of file ordinals, insertion-ordered like a JS `Map`/`Set`),
`filesList` the ordered document table. -/
structure FileIndex where
  files : List (List Char × FileData)
  wordIndex : List (List Char × List Nat)
  filesList : List FileRef
deriving DecidableEq

/-- The freshly constructed index (the JS constructor, lines 9-13). -/
def emptyIndex : FileIndex := ⟨[], [], []⟩

/-- Models `Map.get`: first (and in reachable states only) entry with the given key. -/
def mapGet {α : Type} : List (List Char × α) → List Char → Option α
  | [], _ => none
  | e :: rest, k => if e.1 = k then some e.2 else mapGet rest k

/-- Models `Map.set`: replace the existing entry in place, else append. -/
def mapSet {α : Type} : List (List Char × α) → List Char → α → List (List Char × α)
  | [], k, v => [(k, v)]
  | e :: rest, k, v => if e.1 = k then (k, v) :: rest else e :: mapSet rest k v

/-- Models `Map.delete`: drop the entry with the given key. -/
def mapDelete {α : Type} : List (List Char × α) → List Char → List (List Char × α)
  | [], _ => []
  | e :: rest, k => if e.1 = k then mapDelete rest k else e :: mapDelete rest k

/-- Models `Set.add` on an insertion-ordered set: append if absent. -/
def addElem {α : Type} [DecidableEq α] (s : List α) (a : α) : List α :=
  if a ∈ s then s else s ++ [a]

/-- Models `wordIndex.get(w)` with a missing key read as the empty set. -/
def wiGet (wi : List (List Char × List Nat)) (w : List Char) : List Nat :=
  (mapGet wi w).getD []

/-- Models lines 23-26: `if (!wordIndex.has(word)) wordIndex.set(word, new Set());
wordIndex.get(word).add(fileIndex)`. -/
def wiAdd : List (List Char × List Nat) → List Char → Nat → List (List Char × List Nat)
  | [], w, i => [(w, [i])]
  | e :: rest, w, i =>
    if e.1 = w then (e.1, addElem e.2 i) :: rest else e :: wiAdd rest w i

/-- Models line 40: `wordIndex.get(word)?.delete(fileIndex)`. -/
def wiDelete : List (List Char × List Nat) → List Char → Nat → List (List Char × List Nat)
  | [], _, _ => []
  | e :: rest, w, i =>
    if e.1 = w then (e.1, e.2.filter (fun j => decide (j ≠ i))) :: rest
    else e :: wiDelete rest w i

/-- The CJK character class of the regex on lines 71 and 84:
`[一-鿿぀-ゟ가-힯]` (Han ideographs, Hiragana,
Hangul syllables; note Katakana U+30A0-U+30FF is NOT in the class). -/
def isCJK (c : Char) : Bool :=
  (0x4E00 ≤ c.toNat && c.toNat ≤ 0x9FFF) ||
  (0x3040 ≤ c.toNat && c.toNat ≤ 0x309F) ||
  (0xAC00 ≤ c.toNat && c.toNat ≤ 0xD7AF)

/-- The JS `\w` character class (line 76): `[A-Za-z0-9_]`. -/
def isWordChar (c : Char) : Bool :=
  ('a' ≤ c && c ≤ 'z') || ('A' ≤ c && c ≤ 'Z') || ('0' ≤ c && c ≤ '9') || c = '_'

/-- Maximal runs of `\w` characters, i.e. the matches of `/\b\w+\b/g`
(line 76); the accumulator holds the current run reversed. -/
def splitWordsAux : List Char → List Char → List (List Char)
  | [], acc => if acc = [] then [] else [acc.reverse]
  | c :: rest, acc =>
    if isWordChar c then splitWordsAux rest (c :: acc)
    else if acc = [] then splitWordsAux rest []
    else acc.reverse :: splitWordsAux rest []

/-- All matches of `/\b\w+\b/g` over a text. -/
def splitWords (l : List Char) : List (List Char) := splitWordsAux l []

/-- Models `FileIndex.tokenize` (lines 67-80): the set of single CJK characters of
the text plus the `\w`-words of the lower-cased text, duplicates collapsed,
in insertion order. -/
def tokenize (text : List Char) : List (List Char) :=
  (((text.filter isCJK).map (fun c => [c])) ++ splitWords (text.map Char.toLower)).foldl
    addElem []

/-- Models `FileIndex.addFile` (lines 15-28). -/
def addFile (s : FileIndex) (filepath filename content : List Char) (mtime : Int) :
    FileIndex :=
  let fileIndex := s.filesList.length
  { files := mapSet s.files filepath ⟨filename, content, mtime⟩
    wordIndex := (tokenize content).foldl (fun wi w => wiAdd wi w fileIndex) s.wordIndex
    filesList := s.filesList ++ [⟨filepath, filename⟩] }

/-- Index-attaching enumeration of a list (the `for (let i = 0; ...)` loops). -/
def withIdxFrom {α : Type} : Nat → List α → List (Nat × α)
  | _, [] => []
  | n, a :: l => (n, a) :: withIdxFrom (n + 1) l

/-- Enumeration starting at index 0. -/
def withIdx {α : Type} (l : List α) : List (Nat × α) := withIdxFrom 0 l

/-- Models `filesList.findIndex(f => f.path === filepath)` (line 34), with `-1`
rendered as `none`. -/
def findPathIdx (filepath : List Char) : List FileRef → Option Nat
  | [] => none
  | e :: rest =>
    if e.path = filepath then some 0 else (findPathIdx filepath rest).map (· + 1)

/-- Models `FileIndex._rebuildIndices` (lines 51-65): retokenize every remaining
document against its new ordinal.  (At line 55 the source dereferences
`files.get(path).content`, which throws if the path is absent from the map;
reachable states always resolve, and an absent path contributes nothing
here.) -/
def rebuildIndices (s : FileIndex) : FileIndex :=
  { s with
    wordIndex :=
      (withIdx s.filesList).foldl (fun wi pr =>
        match mapGet s.files pr.2.path with
        | none => wi
        | some fd => (tokenize fd.content).foldl (fun wi2 w => wiAdd wi2 w pr.1) wi) [] }

/-- Models `FileIndex.removeFile` (lines 30-49). -/
def removeFile (s : FileIndex) (filepath : List Char) : FileIndex :=
  match mapGet s.files filepath with
  | none => s
  | some fileData =>
    match findPathIdx filepath s.filesList with
    | none => s
    | some fileIndex =>
      rebuildIndices
        { files := mapDelete s.files filepath
          wordIndex :=
            (tokenize fileData.content).foldl (fun wi w => wiDelete wi w fileIndex)
              s.wordIndex
          filesList := s.filesList.eraseIdx fileIndex }

/-- Holds when `q` occurs at the head of `l` (the successful case of
`line.indexOf(query, pos) === pos`). -/
def matchesAt : List Char → List Char → Bool
  | [], _ => true
  | _ :: _, [] => false
  | a :: qs, b :: ls => a = b && matchesAt qs ls

/-- The `while ((searchPos = line.indexOf(query, searchPos)) !== -1)` loop of
lines 102-106: count non-overlapping occurrences left to right, jumping
`query.length` past each match.  `skip` is the number of characters still to
be consumed by the last match.  (For the empty query the JS loop does not
terminate; phrase mode always passes a query of length ≥ 2.) -/
def countOccurAux (q : List Char) : List Char → Nat → Nat
  | [], _ => 0
  | c :: rest, skip =>
    if 0 < skip then countOccurAux q rest (skip - 1)
    else if matchesAt q (c :: rest) then 1 + countOccurAux q rest (q.length - 1)
    else countOccurAux q rest 0

/-- Non-overlapping occurrence count of `q` in one line. -/
def countOccur (q l : List Char) : Nat := countOccurAux q l 0

/-- Models `content.split('\n')` (lines 100, 140, 153). -/
def splitOnNl : List Char → List (List Char)
  | [] => [[]]
  | c :: rest =>
    if c = '\n' then [] :: splitOnNl rest
    else
      match splitOnNl rest with
      | [] => [[c]]
      | w :: ws => (c :: w) :: ws

/-- Models `line.includes(q)` (lines 142, 156): `q` is a contiguous substring. -/
def containsSub (q : List Char) : List Char → Bool
  | [] => q.isEmpty
  | c :: rest => matchesAt q (c :: rest) || containsSub q rest

/-- The phrase-mode per-document count (lines 99-107): total non-overlapping
occurrences of the literal query over all lines of the content. -/
def phraseCount (q content : List Char) : Nat :=
  ((splitOnNl content).map (fun l => countOccur q l)).sum

/-- One element of the local `matchedFiles` array of `search`
(lines 110-116 / 130-136).  The source's `matches` field is called
`matchCount` here because `matches` is reserved in Lean. -/
structure MatchedFile where
  index : Nat
  path : List Char
  name : List Char
  content : List Char
  matchCount : Nat
deriving DecidableEq

/-- The content a document ordinal resolves to (the
`files.get(filesList[idx].path).content` reads of lines 97 and 134;
reachable states always resolve, defaults keep the function total). -/
def contentOf (s : FileIndex) (i : Nat) : List Char :=
  ((mapGet s.files (s.filesList.getD i ⟨[], []⟩).path).getD ⟨[], [], 0⟩).content

/-- The number of CJK characters of the query (`query.match(cjkRegex)`,
line 85). -/
def cjkCount (q : List Char) : Nat := (q.filter isCJK).length

/-- Models `isMultiCJK` (line 86): strictly more than one CJK character. -/
def isMultiCJK (q : List Char) : Bool := 1 < cjkCount q

/-- Phrase mode (lines 90-118): scan every document, keep those whose
occurrence count is positive. -/
def phraseMatches (s : FileIndex) (q : List Char) : List MatchedFile :=
  (withIdx s.filesList).filterMap (fun pr =>
    let content := ((mapGet s.files pr.2.path).getD ⟨[], [], 0⟩).content
    let count := phraseCount q content
    if 0 < count then some ⟨pr.1, pr.2.path, pr.2.name, content, count⟩ else none)

/-- Token-mode candidate ordinals (lines 121-127): union, in insertion
order, of the posting lists of all query tokens. -/
def tokenCandidates (s : FileIndex) (q : List Char) : List Nat :=
  (tokenize q).foldl (fun acc t => (wiGet s.wordIndex t).foldl addElem acc) []

/-- Token-mode matched files (lines 130-146).  The source first builds each
entry with `matches: 0` and then counts, per file, the lines containing the
literal query; the two loops are fused here. -/
def tokenMatches (s : FileIndex) (q : List Char) : List MatchedFile :=
  (tokenCandidates s q).map (fun idx =>
    let e := s.filesList.getD idx ⟨[], []⟩
    let content := ((mapGet s.files e.path).getD ⟨[], [], 0⟩).content
    ⟨idx, e.path, e.name, content,
      (splitOnNl content).countP (fun l => containsSub q l)⟩)

/-- The `matchedFiles` array of `search` after the mode dispatch of
lines 86-147. -/
def matchedFiles (s : FileIndex) (q : List Char) : List MatchedFile :=
  if isMultiCJK q then phraseMatches s q else tokenMatches s q

/-- The candidate ordinals a query matches (the documents `search` ranks and
returns, before sorting and pagination). -/
def searchCandidates (s : FileIndex) (q : List Char) : List Nat :=
  (matchedFiles s q).map MatchedFile.index

/-- Stable insertion of a file into a list sorted by descending `matches`
(the comparator `(a, b) => b.matches - a.matches` of line 149). -/
def insertDesc (f : MatchedFile) : List MatchedFile → List MatchedFile
  | [] => [f]
  | g :: rest =>
    if g.matchCount < f.matchCount then f :: g :: rest else g :: insertDesc f rest

/-- Models `matchedFiles.sort((a, b) => b.matches - a.matches)` (line 149): a stable
descending sort by match count. -/
def sortByMatches : List MatchedFile → List MatchedFile
  | [] => []
  | f :: rest => insertDesc f (sortByMatches rest)

/-- One hit line: `{lineNum (1-based), content (trimmed)}` (lines 157-160). -/
structure Hit where
  lineNum : Nat
  content : List Char
deriving DecidableEq

/-- One search result entry (lines 164-168). -/
structure ResultEntry where
  path : List Char
  name : List Char
  hits : List Hit
deriving DecidableEq

/-- The `{results, page, totalPages, total}` object returned by `search`
(lines 176-181). -/
structure SearchResult where
  results : List ResultEntry
  page : Int
  totalPages : Nat
  total : Nat
deriving DecidableEq

/-- Models `String.prototype.trim` restricted to ASCII whitespace (line 159). -/
def trimChars (l : List Char) : List Char :=
  ((l.dropWhile Char.isWhitespace).reverse.dropWhile Char.isWhitespace).reverse

/-- Hit extraction for one document (lines 152-168): every line containing
the literal query, 1-based line number, trimmed, capped at 3. -/
def fileHits (q content : List Char) : List Hit :=
  ((withIdx (splitOnNl content)).filterMap (fun pr =>
    if containsSub q pr.2 then some ⟨pr.1 + 1, trimChars pr.2⟩ else none)).take 3

/-- Models `FileIndex.search` (lines 82-182).  The method never assigns to
`this.files`, `this.filesList` or `this.wordIndex`, so the embedding threads
the index state through unchanged as the first component. -/
def search (s : FileIndex) (q : List Char) (page : Int) (perPage : Nat) :
    FileIndex × SearchResult :=
  let sorted := sortByMatches (matchedFiles s q)
  let results := sorted.map (fun f => ResultEntry.mk f.path f.name (fileHits q f.content))
  let totalPages : Nat := (results.length + perPage - 1) / perPage
  let pageNum : Int := max 1 (min page (totalPages : Int))
  let start : Nat := ((pageNum - 1) * (perPage : Int)).toNat
  (s, ⟨(results.drop start).take perPage, pageNum, totalPages, results.length⟩)

/-- Models `searchFiles` (lines 348-353): trim the query, short-circuit when empty,
else delegate with the default page size 15. -/
def searchFiles (s : FileIndex) (query : List Char) (page : Int) :
    FileIndex × SearchResult :=
  if (trimChars query).length = 0 then (s, ⟨[], 1, 0, 0⟩)
  else search s (trimChars query) page 15

/-- Models `FileIndex.serialize` (lines 184-190): the document map entries and the
document table; the posting list is never persisted.  The JSON round-trip is
modelled as the identity on this data. -/
def serialize (s : FileIndex) : List (List Char × FileData) × List FileRef :=
  (s.files, s.filesList)

/-- Models `FileIndex.deserialize` (lines 192-197): restore the document map and
table, then rebuild the posting list from scratch. -/
def deserialize (d : List (List Char × FileData) × List FileRef) : FileIndex :=
  rebuildIndices ⟨d.1, [], d.2⟩

/-- Models `path.basename`: the part after the last `/`. -/
def basename (p : List Char) : List Char :=
  ((p.foldl (fun acc c => if c = '/' then [] else acc ++ [c]) []))

/-- Pass 1 of the startup synchronization (`initializeIndex`, lines 288-303):
for every (path, mtime) of the current scan, if the persisted mtime differs,
remove any existing entry, read the content and re-add.  The `try` of
lines 293-301 catches a failing read (`rf p = none`) per file: the removal
already performed stands, the add is skipped, and the loop continues. -/
def syncPass1 (oldM : List (List Char × Int)) (rf : List Char → Option (List Char)) :
    FileIndex → List (List Char × Int) → FileIndex
  | s, [] => s
  | s, (p, m) :: rest =>
    if mapGet oldM p = some m then syncPass1 oldM rf s rest
    else
      let s1 := if (mapGet s.files p).isSome then removeFile s p else s
      match rf p with
      | some c => syncPass1 oldM rf (addFile s1 p (basename p) c m) rest
      | none => syncPass1 oldM rf s1 rest

/-- Pass 2 of the synchronization (lines 305-311): remove every persisted
path absent from the current scan. -/
def syncPass2 (curM : List (List Char × Int)) :
    FileIndex → List (List Char) → FileIndex
  | s, [] => s
  | s, p :: rest =>
    syncPass2 curM (if (mapGet curM p).isSome then s else removeFile s p) rest

/-- The startup delta synchronization of `initializeIndex` (lines 288-311):
pass 1 over the current-state table, then pass 2 over the persisted
modification-time table's keys. -/
def deltaSync (s : FileIndex) (oldM curM : List (List Char × Int))
    (rf : List Char → Option (List Char)) : FileIndex :=
  syncPass2 curM (syncPass1 oldM rf s curM) (oldM.map Prod.fst)

/-- Pass 1 of the scheduled rebuild (`rebuildIndexCache`, lines 399-408).
Unlike the startup path there is no per-file `try`: the `readFileSync` of
line 405 throws out of the loop into the whole-rebuild catch of line 436, so
a failing read aborts the scan (`true` in the result) with the removal of
line 403 already applied and the remaining files unprocessed. -/
def rebuildPass1 (oldM : List (List Char × Int)) (rf : List Char → Option (List Char)) :
    FileIndex → List (List Char × Int) → FileIndex × Bool
  | s, [] => (s, false)
  | s, (p, m) :: rest =>
    if mapGet oldM p = some m then rebuildPass1 oldM rf s rest
    else
      let s1 := if (mapGet s.files p).isSome then removeFile s p else s
      match rf p with
      | some c => rebuildPass1 oldM rf (addFile s1 p (basename p) c m) rest
      | none => (s1, true)

/-- The scheduled rebuild synchronization (`rebuildIndexCache`,
lines 399-416): on an aborted pass 1 the deletion pass never runs. -/
def rebuildSync (s : FileIndex) (oldM curM : List (List Char × Int))
    (rf : List Char → Option (List Char)) : FileIndex :=
  match rebuildPass1 oldM rf s curM with
  | (s1, true) => s1
  | (s1, false) => syncPass2 curM s1 (oldM.map Prod.fst)

/-- An index mutation: the two `FileIndex` state-changing operations. -/
inductive Op where
  | add (path name content : List Char) (mtime : Int)
  | remove (path : List Char)

/-- Apply one operation to the index. -/
def applyOp (s : FileIndex) : Op → FileIndex
  | Op.add p n c m => addFile s p n c m
  | Op.remove p => removeFile s p

/-- Run a sequence of operations from a starting state. -/
def runFrom (s : FileIndex) (ops : List Op) : FileIndex := ops.foldl applyOp s

/-- Run a sequence of operations from the empty index. -/
def runOps (ops : List Op) : FileIndex := runFrom emptyIndex ops

/-- Every `add` of the sequence is for a path not currently in the index —
the discipline every caller in the source follows (`removeFile` precedes
`addFile` at lines 294-298 and 402-406). -/
def freshAdds : FileIndex → List Op → Bool
  | _, [] => true
  | s, Op.add p n c m :: rest =>
    !(mapGet s.files p).isSome && freshAdds (addFile s p n c m) rest
  | s, Op.remove p :: rest => freshAdds (removeFile s p) rest

/-- Well-formedness of an index state: distinct document paths, every table
entry resolvable in the document map, every document-map key listed in the
table, and the posting list exactly records which current ordinal's content
contains which token.  Every state reachable by the source's operations
satisfies this. -/
structure WfIndex (s : FileIndex) : Prop where
  nodupPaths : (s.filesList.map FileRef.path).Nodup
  resolves : ∀ e ∈ s.filesList, (mapGet s.files e.path).isSome = true
  covered : ∀ p, (mapGet s.files p).isSome = true → p ∈ s.filesList.map FileRef.path
  postings : ∀ w i, i ∈ wiGet s.wordIndex w ↔
    (i < s.filesList.length ∧ w ∈ tokenize (contentOf s i))

/-! ### Concrete example states used by the claim witnesses -/

/-- C1 example corpus: document X has the three CJK characters contiguous on
one line, document Y has them scattered over different lines. -/
def exOpsC1 : List Op :=
  [Op.add "x.md".toList "x.md".toList "ab\u5929\u5730\u4ebacd".toList 1,
   Op.add "y.md".toList "y.md".toList "\u5929x\n\u5730y\n\u4ebaz".toList 2]

/-- The index of the C1 example corpus. -/
def exIdxC1 : FileIndex := runOps exOpsC1

/-- The C1 query: three contiguous CJK characters. -/
def exQueryC1 : List Char := "\u5929\u5730\u4eba".toList

/-- C2 example corpus: document A contains only "alpha", document B only
"beta". -/
def exOpsC2 : List Op :=
  [Op.add "a.md".toList "a.md".toList "alpha".toList 1,
   Op.add "b.md".toList "b.md".toList "beta".toList 2]

/-- The index of the C2 example corpus. -/
def exIdxC2 : FileIndex := runOps exOpsC2

/-- C4 example prior index: documents a.md and b.md as left by the cache. -/
def exOpsC4 : List Op :=
  [Op.add "a.md".toList "a.md".toList "AA".toList 1,
   Op.add "b.md".toList "b.md".toList "BB".toList 2]

/-- The C4 prior index. -/
def exIdxC4 : FileIndex := runOps exOpsC4

/-- C4 persisted modification-time table: {a.md: 1, b.md: 2}. -/
def exOldC4 : List (List Char × Int) := [("a.md".toList, 1), ("b.md".toList, 2)]

/-- C4 current scan: {a.md: 1 (unchanged), c.md: 3 (new)}; b.md deleted. -/
def exCurC4 : List (List Char × Int) := [("a.md".toList, 1), ("c.md".toList, 3)]

/-- C4 reader: c.md reads fresh content; reading anything else (including the
unchanged a.md) fails, which proves a.md is never re-read. -/
def exRfC4 : List Char → Option (List Char) :=
  fun p => if p = "c.md".toList then some "CC".toList else none

/-- C5 example corpus. -/
def exOpsC5 : List Op :=
  [Op.add "a.md".toList "a.md".toList "alpha common".toList 1,
   Op.add "b.md".toList "b.md".toList "beta common".toList 2]

/-- The index of the C5 example corpus. -/
def exIdxC5 : FileIndex := runOps exOpsC5

/-- C6 counterexample: the same path added twice without an intervening
removal (the discipline the source's callers follow is violated). -/
def exOpsC6bad : List Op :=
  [Op.add "p".toList "p".toList "x".toList 1,
   Op.add "p".toList "p".toList "y".toList 1]

/-- C6 witness operations: adds of distinct paths and a removal. -/
def exOpsC6 : List Op :=
  [Op.add "a.md".toList "a.md".toList "alpha".toList 1,
   Op.add "b.md".toList "b.md".toList "beta".toList 2,
   Op.remove "a.md".toList]

/-- C7 example corpus. -/
def exOpsC7 : List Op :=
  [Op.add "a.md".toList "a.md".toList "alpha beta".toList 1,
   Op.add "b.md".toList "b.md".toList "beta gamma".toList 2]

/-- The index of the C7 example corpus. -/
def exIdxC7 : FileIndex := runOps exOpsC7

/-- C8 example corpus: 16 documents, each containing the word "hit". -/
def exOpsC8 : List Op :=
  (List.range 16).map (fun i =>
    Op.add ("d".toList ++ (Nat.repr i).toList) ("d".toList ++ (Nat.repr i).toList)
      "hit".toList 1)

/-- The index of the C8 example corpus. -/
def exIdxC8 : FileIndex := runOps exOpsC8

/-- C9 example prior index: a.md indexed with its old content. -/
def exOpsC9 : List Op := [Op.add "a.md".toList "a.md".toList "old".toList 1]

/-- The C9 prior index. -/
def exIdxC9 : FileIndex := runOps exOpsC9

/-- C9 persisted table: a.md was seen at mtime 1. -/
def exOldC9 : List (List Char × Int) := [("a.md".toList, 1)]

/-- C9 current scan: a.md changed (mtime 2), and a new b.md appeared after
it.  The reader fails on a.md but reads b.md. -/
def exCurC9 : List (List Char × Int) := [("a.md".toList, 2), ("b.md".toList, 3)]

/-- C9 reader: a.md is unreadable, b.md reads fine. -/
def exRfC9 : List Char → Option (List Char) :=
  fun p => if p = "b.md".toList then some "fresh".toList else none

/-! ### Association-map algebra -/

theorem mapGet_mapSet {α : Type} (m : List (List Char × α)) (k x : List Char) (v : α) :
    mapGet (mapSet m k v) x = if x = k then some v else mapGet m x := by
  induction m with
  | nil =>
    by_cases hx : x = k
    · subst hx; simp [mapSet, mapGet]
    · simp [mapSet, mapGet, hx, Ne.symm hx]
  | cons e rest ih =>
    by_cases he : e.1 = k
    · by_cases hx : x = k
      · subst hx; simp [mapSet, mapGet, he]
      · have hex : ¬ e.1 = x := by rw [he]; exact Ne.symm hx
        have hkx : ¬ k = x := Ne.symm hx
        simp [mapSet, mapGet, he, hx, hex, hkx]
    · by_cases hx : e.1 = x
      · have hxk : ¬ x = k := by rw [← hx]; exact he
        simp [mapSet, mapGet, he, hx, hxk]
      · simp [mapSet, mapGet, he, hx, ih]

theorem mapGet_mapDelete {α : Type} (m : List (List Char × α)) (k x : List Char) :
    mapGet (mapDelete m k) x = if x = k then none else mapGet m x := by
  induction m with
  | nil => by_cases hx : x = k <;> simp [mapDelete, mapGet, hx]
  | cons e rest ih =>
    by_cases he : e.1 = k
    · by_cases hx : x = k
      · subst hx; simp [mapDelete, mapGet, he, ih]
      · have hex : ¬ e.1 = x := by rw [he]; exact Ne.symm hx
        simp [mapDelete, mapGet, he, hx, hex, Ne.symm hx, ih]
    · by_cases hx : e.1 = x
      · have hxk : ¬ x = k := by rw [← hx]; exact he
        simp [mapDelete, mapGet, he, hx, hxk]
      · simp [mapDelete, mapGet, he, hx, ih]

theorem mem_addElem {α : Type} [DecidableEq α] (s : List α) (a x : α) :
    x ∈ addElem s a ↔ x ∈ s ∨ x = a := by
  by_cases h : a ∈ s
  · simp only [addElem, if_pos h]
    constructor
    · exact fun hx => Or.inl hx
    · rintro (hx | rfl) <;> assumption
  · simp [addElem, if_neg h]

theorem nodup_addElem {α : Type} [DecidableEq α] (s : List α) (a : α) (h : s.Nodup) :
    (addElem s a).Nodup := by
  by_cases ha : a ∈ s
  · simpa [addElem, if_pos ha]
  · simp [addElem, if_neg ha, List.nodup_append, h, ha]

theorem mem_foldl_addElem {α : Type} [DecidableEq α] (l acc : List α) (x : α) :
    x ∈ l.foldl addElem acc ↔ x ∈ acc ∨ x ∈ l := by
  induction l generalizing acc with
  | nil => simp
  | cons a rest ih => simp [ih, mem_addElem, or_assoc]

theorem nodup_foldl_addElem {α : Type} [DecidableEq α] (l acc : List α)
    (h : acc.Nodup) : (l.foldl addElem acc).Nodup := by
  induction l generalizing acc with
  | nil => simpa
  | cons a rest ih => exact ih _ (nodup_addElem _ _ h)

theorem wiGet_wiAdd (wi : List (List Char × List Nat)) (w x : List Char) (i : Nat) :
    wiGet (wiAdd wi w i) x = if x = w then addElem (wiGet wi w) i else wiGet wi x := by
  induction wi with
  | nil =>
    by_cases hx : x = w
    · subst hx; simp [wiAdd, wiGet, mapGet, addElem]
    · simp [wiAdd, wiGet, mapGet, hx, Ne.symm hx, addElem]
  | cons e rest ih =>
    by_cases he : e.1 = w
    · by_cases hx : x = w
      · subst hx; simp [wiAdd, wiGet, mapGet, he]
      · have hex : ¬ e.1 = x := by rw [he]; exact Ne.symm hx
        simp [wiAdd, wiGet, mapGet, he, hx, hex, Ne.symm hx]
    · by_cases hx : e.1 = x
      · have hxw : ¬ x = w := by rw [← hx]; exact he
        simp [wiAdd, wiGet, mapGet, he, hx, hxw]
      · simpa [wiAdd, wiGet, mapGet, he, hx] using ih

theorem mem_wiGet_foldl_wiAdd (toks : List (List Char))
    (wi : List (List Char × List Nat)) (i j : Nat) (x : List Char) :
    j ∈ wiGet (toks.foldl (fun a w => wiAdd a w i) wi) x ↔
      j ∈ wiGet wi x ∨ (x ∈ toks ∧ j = i) := by
  induction toks generalizing wi with
  | nil => simp
  | cons t rest ih =>
    simp only [List.foldl_cons, ih, wiGet_wiAdd]
    by_cases hx : x = t
    · subst hx
      rw [if_pos rfl]
      simp only [mem_addElem, List.mem_cons, eq_self_iff_true, true_or, true_and]
      tauto
    · simp only [if_neg hx, List.mem_cons]
      tauto

/-! ### Enumeration -/

theorem mem_withIdxFrom {α : Type} (l : List α) (n : Nat) (pr : Nat × α) :
    pr ∈ withIdxFrom n l ↔
      ∃ k, k < l.length ∧ pr.1 = n + k ∧ l[k]? = some pr.2 := by
  induction l generalizing n with
  | nil => simp [withIdxFrom]
  | cons a rest ih =>
    simp only [withIdxFrom, List.mem_cons, ih]
    constructor
    · rintro (rfl | ⟨k, hk, h1, h2⟩)
      · exact ⟨0, by simp, by simp, by simp⟩
      · exact ⟨k + 1, by simp only [List.length_cons]; omega, by omega,
          by simpa using h2⟩
    · rintro ⟨k, hk, h1, h2⟩
      cases k with
      | zero =>
        left
        simp only [List.getElem?_cons_zero, Option.some.injEq] at h2
        obtain ⟨p1, p2⟩ := pr
        simp_all
      | succ k =>
        right
        refine ⟨k, ?_, by omega, by simpa using h2⟩
        simp only [List.length_cons] at hk
        omega

theorem mem_withIdx {α : Type} (l : List α) (i : Nat) (a : α) :
    (i, a) ∈ withIdx l ↔ l[i]? = some a := by
  rw [withIdx, mem_withIdxFrom]
  constructor
  · rintro ⟨k, hk, h1, h2⟩
    simp only at h1 h2
    subst h1
    simpa using h2
  · intro h
    have hi : i < l.length := by
      rcases List.getElem?_eq_some_iff.mp h with ⟨hh, _⟩
      exact hh
    exact ⟨i, hi, by simp, h⟩

/-! ### Posting-list rebuild characterization -/

theorem tokenize_nil : tokenize [] = [] := rfl

theorem contentOf_eq (s : FileIndex) (i : Nat) (h : i < s.filesList.length) :
    contentOf s i = ((mapGet s.files (s.filesList[i]).path).getD ⟨[], [], 0⟩).content := by
  simp [contentOf, List.getD_eq_getElem?_getD, List.getElem?_eq_getElem h]

theorem mem_wiGet_rebuildStep (files : List (List Char × FileData))
    (L : List (Nat × FileRef)) (wi : List (List Char × List Nat)) (w : List Char)
    (j : Nat) :
    j ∈ wiGet (L.foldl (fun acc pr =>
        match mapGet files pr.2.path with
        | none => acc
        | some fd => (tokenize fd.content).foldl (fun wi2 w2 => wiAdd wi2 w2 pr.1) acc)
        wi) w ↔
      j ∈ wiGet wi w ∨ ∃ pr ∈ L, pr.1 = j ∧
        ∃ fd, mapGet files pr.2.path = some fd ∧ w ∈ tokenize fd.content := by
  induction L generalizing wi with
  | nil => simp
  | cons a L ih =>
    simp only [List.foldl_cons, List.mem_cons]
    cases hma : mapGet files a.2.path with
    | none =>
      rw [ih]
      constructor
      · rintro (h | ⟨pr, hpr, h1, fd, hfd, hw⟩)
        · exact Or.inl h
        · exact Or.inr ⟨pr, Or.inr hpr, h1, fd, hfd, hw⟩
      · rintro (h | ⟨pr, hpr | hpr, h1, fd, hfd, hw⟩)
        · exact Or.inl h
        · subst hpr; rw [hma] at hfd; cases hfd
        · exact Or.inr ⟨pr, hpr, h1, fd, hfd, hw⟩
    | some fd =>
      rw [ih, mem_wiGet_foldl_wiAdd]
      constructor
      · rintro ((h | ⟨hw, rfl⟩) | ⟨pr, hpr, h1, fd2, hfd2, hw2⟩)
        · exact Or.inl h
        · exact Or.inr ⟨a, Or.inl rfl, rfl, fd, hma, hw⟩
        · exact Or.inr ⟨pr, Or.inr hpr, h1, fd2, hfd2, hw2⟩
      · rintro (h | ⟨pr, hpr | hpr, h1, fd2, hfd2, hw2⟩)
        · exact Or.inl (Or.inl h)
        · subst hpr
          rw [hma] at hfd2
          injection hfd2 with hh
          subst hh
          exact Or.inl (Or.inr ⟨hw2, h1.symm⟩)
        · exact Or.inr ⟨pr, hpr, h1, fd2, hfd2, hw2⟩

theorem mem_wiGet_rebuild (s : FileIndex) (w : List Char) (i : Nat) :
    i ∈ wiGet (rebuildIndices s).wordIndex w ↔
      (i < s.filesList.length ∧ w ∈ tokenize (contentOf s i)) := by
  simp only [rebuildIndices]
  rw [mem_wiGet_rebuildStep]
  simp only [wiGet, mapGet, Option.getD_none, List.not_mem_nil, false_or]
  constructor
  · rintro ⟨⟨j, e⟩, hpr, h1, fd, hfd, hw⟩
    dsimp only at h1 hfd
    subst h1
    rw [mem_withIdx] at hpr
    have hi : j < s.filesList.length := (List.getElem?_eq_some_iff.mp hpr).1
    have he : s.filesList[j] = e := by
      rw [List.getElem?_eq_getElem hi] at hpr
      injection hpr
    refine ⟨hi, ?_⟩
    rw [contentOf_eq s j hi, he, hfd]
    exact hw
  · rintro ⟨hi, hw⟩
    have he : s.filesList[i]? = some (s.filesList[i]) := List.getElem?_eq_getElem hi
    rw [contentOf_eq s i hi] at hw
    cases hm : mapGet s.files (s.filesList[i]).path with
    | none =>
      rw [hm] at hw
      simp only [Option.getD_none] at hw
      rw [tokenize_nil] at hw
      cases hw
    | some fd =>
      refine ⟨(i, s.filesList[i]), (mem_withIdx _ _ _).mpr he, rfl, fd, hm, ?_⟩
      rw [hm] at hw
      exact hw

/-! ### eraseIdx and findPathIdx support -/

theorem eraseIdx_map {α β : Type} (f : α → β) (l : List α) (i : Nat) :
    (l.eraseIdx i).map f = (l.map f).eraseIdx i := by
  induction l generalizing i with
  | nil => simp [List.eraseIdx]
  | cons a rest ih =>
    cases i with
    | zero => simp [List.eraseIdx]
    | succ i => simp [List.eraseIdx, ih]

theorem getElem_mem_eraseIdx_of_ne {α : Type} (l : List α) (i j : Nat)
    (hj : j < l.length) (hne : j ≠ i) : l[j] ∈ l.eraseIdx i := by
  induction l generalizing i j with
  | nil => simp at hj
  | cons a rest ih =>
    cases i with
    | zero =>
      cases j with
      | zero => omega
      | succ j =>
        simp only [List.eraseIdx, List.getElem_cons_succ]
        exact List.getElem_mem (by simp at hj; omega)
    | succ i =>
      cases j with
      | zero => simp [List.eraseIdx]
      | succ j =>
        simp only [List.eraseIdx, List.getElem_cons_succ, List.mem_cons]
        right
        exact ih i j (by simp at hj; omega) (by omega)

theorem not_mem_eraseIdx_self {α : Type} [DecidableEq α] (l : List α) (i : Nat)
    (hi : i < l.length) (hnd : l.Nodup) : l[i] ∉ l.eraseIdx i := by
  induction l generalizing i with
  | nil => simp at hi
  | cons a rest ih =>
    cases i with
    | zero =>
      simp only [List.eraseIdx, List.getElem_cons_zero]
      exact (List.nodup_cons.mp hnd).1
    | succ i =>
      simp only [List.eraseIdx, List.getElem_cons_succ, List.mem_cons]
      push_neg
      constructor
      · intro h
        exact (List.nodup_cons.mp hnd).1 (h ▸ List.getElem_mem (by simp at hi; omega))
      · exact ih i (by simp at hi; omega) (List.nodup_cons.mp hnd).2

theorem findPathIdx_some (p : List Char) (l : List FileRef) (i : Nat)
    (h : findPathIdx p l = some i) :
    ∃ hi : i < l.length, (l[i]).path = p := by
  induction l generalizing i with
  | nil => simp [findPathIdx] at h
  | cons e rest ih =>
    by_cases he : e.path = p
    · simp only [findPathIdx, if_pos he] at h
      injection h with h
      subst h
      exact ⟨by simp, he⟩
    · simp only [findPathIdx, if_neg he] at h
      cases hr : findPathIdx p rest with
      | none => rw [hr] at h; cases h
      | some j =>
        rw [hr] at h
        simp only [Option.map_some'] at h
        obtain ⟨hj, hjp⟩ := ih j hr
        have hij : i = j + 1 := by injection h with h; omega
        subst hij
        exact ⟨by simp; omega, by simpa using hjp⟩

theorem findPathIdx_isSome (p : List Char) (l : List FileRef)
    (h : ∃ e ∈ l, e.path = p) : (findPathIdx p l).isSome = true := by
  induction l with
  | nil => simp at h
  | cons e rest ih =>
    by_cases he : e.path = p
    · simp [findPathIdx, if_pos he]
    · simp only [findPathIdx, if_neg he]
      obtain ⟨e2, he2, hp2⟩ := h
      rcases List.mem_cons.mp he2 with rfl | hmem
      · exact absurd hp2 he
      · have := ih ⟨e2, hmem, hp2⟩
        cases hr : findPathIdx p rest with
        | none => rw [hr] at this; cases this
        | some j => simp [hr]

/-! ### Well-formedness preservation -/

theorem wf_empty : WfIndex emptyIndex := by
  constructor
  · simp [emptyIndex]
  · simp [emptyIndex]
  · intro p h
    simp [emptyIndex, mapGet] at h
  · intro w i
    simp [emptyIndex, wiGet, mapGet]

theorem addFile_filesList (s : FileIndex) (p n c : List Char) (m : Int) :
    (addFile s p n c m).filesList = s.filesList ++ [⟨p, n⟩] := rfl

theorem addFile_files_get (s : FileIndex) (p n c x : List Char) (m : Int) :
    mapGet (addFile s p n c m).files x =
      if x = p then some ⟨n, c, m⟩ else mapGet s.files x :=
  mapGet_mapSet s.files p x ⟨n, c, m⟩

theorem fresh_not_listed (s : FileIndex) (p : List Char) (hw : WfIndex s)
    (hp : mapGet s.files p = none) : p ∉ s.filesList.map FileRef.path := by
  intro hmem
  rcases List.mem_map.mp hmem with ⟨e, he, hep⟩
  have := hw.resolves e he
  rw [hep, hp] at this
  simp at this

theorem contentOf_addFile_lt (s : FileIndex) (p n c : List Char) (m : Int) (i : Nat)
    (hw : WfIndex s) (hp : mapGet s.files p = none) (hi : i < s.filesList.length) :
    contentOf (addFile s p n c m) i = contentOf s i := by
  have hi2 : i < (addFile s p n c m).filesList.length := by
    rw [addFile_filesList, List.length_append]
    omega
  rw [contentOf_eq _ _ hi2, contentOf_eq _ _ hi]
  have hgl : (addFile s p n c m).filesList[i] = s.filesList[i] := by
    show (s.filesList ++ [⟨p, n⟩])[i] = s.filesList[i]
    exact List.getElem_append_left hi
  rw [hgl, addFile_files_get]
  have hne : ¬ (s.filesList[i]).path = p := by
    intro hcontra
    exact fresh_not_listed s p hw hp
      (hcontra ▸ List.mem_map_of_mem FileRef.path (List.getElem_mem hi))
  rw [if_neg hne]

theorem contentOf_addFile_last (s : FileIndex) (p n c : List Char) (m : Int) :
    contentOf (addFile s p n c m) s.filesList.length = c := by
  have hi2 : s.filesList.length < (addFile s p n c m).filesList.length := by
    simp [addFile_filesList]
  rw [contentOf_eq _ _ hi2]
  have hgl : (addFile s p n c m).filesList[s.filesList.length] = (⟨p, n⟩ : FileRef) := by
    show (s.filesList ++ [⟨p, n⟩])[s.filesList.length] = _
    rw [List.getElem_append_right (Nat.le_refl _)]
    simp
  rw [hgl, addFile_files_get]
  simp

theorem wf_addFile (s : FileIndex) (p n c : List Char) (m : Int)
    (hw : WfIndex s) (hp : mapGet s.files p = none) :
    WfIndex (addFile s p n c m) := by
  have hfresh := fresh_not_listed s p hw hp
  constructor
  · rw [addFile_filesList, List.map_append, List.nodup_append]
    refine ⟨hw.nodupPaths, by simp, ?_⟩
    intro x hx hx2
    simp at hx2
    subst hx2
    exact hfresh hx
  · intro e he
    rw [addFile_filesList] at he
    rw [addFile_files_get]
    rcases List.mem_append.mp he with he | he
    · have hne : ¬ e.path = p := by
        intro hcontra
        exact hfresh (hcontra ▸ List.mem_map_of_mem FileRef.path he)
      rw [if_neg hne]
      exact hw.resolves e he
    · simp at he
      subst he
      simp
  · intro x hx
    rw [addFile_files_get] at hx
    rw [addFile_filesList, List.map_append]
    by_cases hxp : x = p
    · subst hxp
      simp
    · rw [if_neg hxp] at hx
      exact List.mem_append.mpr (Or.inl (hw.covered x hx))
  · intro w i
    have : (addFile s p n c m).wordIndex =
        (tokenize c).foldl (fun wi w2 => wiAdd wi w2 s.filesList.length) s.wordIndex := rfl
    rw [this, mem_wiGet_foldl_wiAdd, hw.postings]
    rw [addFile_filesList, List.length_append]
    constructor
    · rintro (⟨hi, hc⟩ | ⟨hc, rfl⟩)
      · rw [contentOf_addFile_lt s p n c m i hw hp hi]
        exact ⟨by omega, hc⟩
      · rw [contentOf_addFile_last s p n c m]
        exact ⟨by simp, hc⟩
    · rintro ⟨hi, hc⟩
      by_cases hil : i < s.filesList.length
      · rw [contentOf_addFile_lt s p n c m i hw hp hil] at hc
        exact Or.inl ⟨hil, hc⟩
      · have : i = s.filesList.length := by simp at hi; omega
        subst this
        rw [contentOf_addFile_last s p n c m] at hc
        exact Or.inr ⟨hc, rfl⟩

theorem contentOf_rebuild (s : FileIndex) (i : Nat) :
    contentOf (rebuildIndices s) i = contentOf s i := rfl

theorem wf_removeFile (s : FileIndex) (p : List Char) (hw : WfIndex s) :
    WfIndex (removeFile s p) := by
  unfold removeFile
  cases hm : mapGet s.files p with
  | none => exact hw
  | some fd =>
    cases hf : findPathIdx p s.filesList with
    | none => exact hw
    | some idx =>
      obtain ⟨hidx, hpath⟩ := findPathIdx_some p s.filesList idx hf
      show WfIndex (rebuildIndices
        { files := mapDelete s.files p
          wordIndex := List.foldl (fun wi w => wiDelete wi w idx) s.wordIndex
            (tokenize fd.content)
          filesList := s.filesList.eraseIdx idx })
      have hmaplen : idx < (s.filesList.map FileRef.path).length := by simpa using hidx
      have hmapidx : (s.filesList.map FileRef.path)[idx] = p := by
        rw [List.getElem_map]
        exact hpath
      have hpaths : (s.filesList.eraseIdx idx).map FileRef.path =
          (s.filesList.map FileRef.path).eraseIdx idx := eraseIdx_map _ _ _
      have hnotp : p ∉ (s.filesList.map FileRef.path).eraseIdx idx := by
        have := not_mem_eraseIdx_self (s.filesList.map FileRef.path) idx
          (by simpa using hidx) hw.nodupPaths
        rwa [hmapidx] at this
      constructor
      · show ((s.filesList.eraseIdx idx).map FileRef.path).Nodup
        rw [hpaths]
        exact (List.eraseIdx_sublist _ idx).nodup hw.nodupPaths
      · intro e he
        show (mapGet (mapDelete s.files p) e.path).isSome = true
        have hel : e ∈ s.filesList := (List.eraseIdx_sublist _ idx).mem he
        have hep : ¬ e.path = p := by
          intro hcontra
          apply hnotp
          rw [← hpaths, ← hcontra]
          exact List.mem_map_of_mem FileRef.path he
        rw [mapGet_mapDelete, if_neg hep]
        exact hw.resolves e hel
      · intro x hx
        show x ∈ (s.filesList.eraseIdx idx).map FileRef.path
        replace hx : (mapGet (mapDelete s.files p) x).isSome = true := hx
        rw [mapGet_mapDelete] at hx
        by_cases hxp : x = p
        · rw [if_pos hxp] at hx
          simp at hx
        · rw [if_neg hxp] at hx
          have hxin := hw.covered x hx
          rcases List.mem_iff_getElem.mp hxin with ⟨j, hj, hjx⟩
          have hji : j ≠ idx := by
            intro hcontra
            subst hcontra
            rw [hmapidx] at hjx
            exact hxp hjx.symm
          rw [hpaths]
          exact hjx ▸ getElem_mem_eraseIdx_of_ne _ idx j hj hji
      · intro w i
        exact mem_wiGet_rebuild _ w i

theorem wf_runFrom (ops : List Op) (s : FileIndex) (hw : WfIndex s)
    (hf : freshAdds s ops = true) : WfIndex (runFrom s ops) := by
  induction ops generalizing s with
  | nil => exact hw
  | cons op rest ih =>
    cases op with
    | add p n c m =>
      simp only [freshAdds, Bool.and_eq_true] at hf
      obtain ⟨h1, h2⟩ := hf
      have hnone : mapGet s.files p = none := by
        cases h : mapGet s.files p with
        | none => rfl
        | some v => rw [h] at h1; simp at h1
      exact ih (addFile s p n c m) (wf_addFile s p n c m hw hnone) h2
    | remove p =>
      simp only [freshAdds] at hf
      exact ih (removeFile s p) (wf_removeFile s p hw) hf

theorem wf_runOps (ops : List Op) (hf : freshAdds emptyIndex ops = true) :
    WfIndex (runOps ops) :=
  wf_runFrom ops emptyIndex wf_empty hf

/-! ### Sorting (the stable descending sort of line 149) -/

theorem length_insertDesc (f : MatchedFile) (l : List MatchedFile) :
    (insertDesc f l).length = l.length + 1 := by
  induction l with
  | nil => rfl
  | cons g rest ih =>
    by_cases h : g.matchCount < f.matchCount <;> simp [insertDesc, h, ih]

theorem length_sortByMatches (l : List MatchedFile) :
    (sortByMatches l).length = l.length := by
  induction l with
  | nil => rfl
  | cons f rest ih => simp [sortByMatches, length_insertDesc, ih]

theorem mem_insertDesc (f x : MatchedFile) (l : List MatchedFile) :
    x ∈ insertDesc f l ↔ x = f ∨ x ∈ l := by
  induction l with
  | nil => simp [insertDesc]
  | cons g rest ih =>
    by_cases h : g.matchCount < f.matchCount
    · simp [insertDesc, h]
    · simp [insertDesc, h, ih]
      tauto

theorem mem_sortByMatches (x : MatchedFile) (l : List MatchedFile) :
    x ∈ sortByMatches l ↔ x ∈ l := by
  induction l with
  | nil => simp [sortByMatches]
  | cons f rest ih => simp [sortByMatches, mem_insertDesc, ih]

/-! ### Candidate characterizations -/

theorem mem_tokenCandidates_aux (toks : List (List Char))
    (wi : List (List Char × List Nat)) (acc : List Nat) (j : Nat) :
    j ∈ toks.foldl (fun acc2 t => (wiGet wi t).foldl addElem acc2) acc ↔
      j ∈ acc ∨ ∃ t ∈ toks, j ∈ wiGet wi t := by
  induction toks generalizing acc with
  | nil => simp
  | cons t rest ih =>
    simp only [List.foldl_cons, ih, mem_foldl_addElem, List.mem_cons]
    constructor
    · rintro ((h | h) | ⟨t2, ht2, hj⟩)
      · exact Or.inl h
      · exact Or.inr ⟨t, Or.inl rfl, h⟩
      · exact Or.inr ⟨t2, Or.inr ht2, hj⟩
    · rintro (h | ⟨t2, rfl | ht2, hj⟩)
      · exact Or.inl (Or.inl h)
      · exact Or.inl (Or.inr hj)
      · exact Or.inr ⟨t2, ht2, hj⟩

theorem mem_tokenCandidates (s : FileIndex) (q : List Char) (i : Nat) :
    i ∈ tokenCandidates s q ↔ ∃ t ∈ tokenize q, i ∈ wiGet s.wordIndex t := by
  rw [tokenCandidates, mem_tokenCandidates_aux]
  simp

theorem map_index_tokenMatches (s : FileIndex) (q : List Char) :
    (tokenMatches s q).map MatchedFile.index = tokenCandidates s q := by
  rw [tokenMatches, List.map_map]
  exact List.map_id _

theorem mem_map_index_phraseMatches (s : FileIndex) (q : List Char) (i : Nat) :
    i ∈ (phraseMatches s q).map MatchedFile.index ↔
      i < s.filesList.length ∧ 0 < phraseCount q (contentOf s i) := by
  simp only [phraseMatches, List.mem_map, List.mem_filterMap]
  constructor
  · rintro ⟨mf, ⟨⟨j, e⟩, hpr, hsome⟩, hidx⟩
    dsimp only at hsome
    by_cases hc : 0 < phraseCount q (((mapGet s.files e.path).getD ⟨[], [], 0⟩).content)
    · rw [if_pos hc] at hsome
      injection hsome with hs
      subst hs
      dsimp only at hidx
      subst hidx
      rw [mem_withIdx] at hpr
      have hi : j < s.filesList.length := (List.getElem?_eq_some_iff.mp hpr).1
      have he : s.filesList[j] = e := by
        rw [List.getElem?_eq_getElem hi] at hpr
        injection hpr
      refine ⟨hi, ?_⟩
      rw [contentOf_eq s j hi, he]
      exact hc
    · rw [if_neg hc] at hsome
      cases hsome
  · rintro ⟨hi, hc⟩
    have he : s.filesList[i]? = some (s.filesList[i]) := List.getElem?_eq_getElem hi
    rw [contentOf_eq s i hi] at hc
    refine ⟨⟨i, (s.filesList[i]).path, (s.filesList[i]).name,
      ((mapGet s.files (s.filesList[i]).path).getD ⟨[], [], 0⟩).content,
      phraseCount q (((mapGet s.files (s.filesList[i]).path).getD ⟨[], [], 0⟩).content)⟩,
      ⟨(i, s.filesList[i]), (mem_withIdx _ _ _).mpr he, ?_⟩, rfl⟩
    dsimp only
    rw [if_pos hc]

theorem searchCandidates_phrase (s : FileIndex) (q : List Char)
    (h : isMultiCJK q = true) :
    searchCandidates s q = (phraseMatches s q).map MatchedFile.index := by
  simp [searchCandidates, matchedFiles, h]

theorem searchCandidates_token (s : FileIndex) (q : List Char)
    (h : isMultiCJK q = false) :
    searchCandidates s q = tokenCandidates s q := by
  simp [searchCandidates, matchedFiles, h, map_index_tokenMatches]

theorem search_total_eq (s : FileIndex) (q : List Char) (page : Int) (pp : Nat) :
    (search s q page pp).2.total = (searchCandidates s q).length := by
  simp [search, searchCandidates, length_sortByMatches]

theorem mem_matchedFiles_path (s : FileIndex) (q : List Char) (f : MatchedFile)
    (hw : WfIndex s) (hf : f ∈ matchedFiles s q) :
    f.path ∈ s.filesList.map FileRef.path := by
  rw [matchedFiles] at hf
  by_cases hm : isMultiCJK q
  · rw [if_pos hm] at hf
    simp only [phraseMatches, List.mem_filterMap] at hf
    obtain ⟨⟨j, e⟩, hpr, hsome⟩ := hf
    dsimp only at hsome
    by_cases hc : 0 < phraseCount q (((mapGet s.files e.path).getD ⟨[], [], 0⟩).content)
    · rw [if_pos hc] at hsome
      injection hsome with hs
      subst hs
      rw [mem_withIdx] at hpr
      have hi : j < s.filesList.length := (List.getElem?_eq_some_iff.mp hpr).1
      have he : s.filesList[j] = e := by
        rw [List.getElem?_eq_getElem hi] at hpr
        injection hpr
      exact he ▸ List.mem_map_of_mem FileRef.path (List.getElem_mem hi)
    · rw [if_neg hc] at hsome
      cases hsome
  · rw [if_neg hm] at hf
    simp only [tokenMatches, List.mem_map] at hf
    obtain ⟨idx, hidx, rfl⟩ := hf
    dsimp only
    rw [mem_tokenCandidates] at hidx
    obtain ⟨t, ht, hwi⟩ := hidx
    obtain ⟨hlt, _⟩ := (hw.postings t idx).mp hwi
    rw [List.getD_eq_getElem?_getD, List.getElem?_eq_getElem hlt]
    exact List.mem_map_of_mem FileRef.path (List.getElem_mem hlt)

theorem search_results_path (s : FileIndex) (q : List Char) (page : Int) (pp : Nat)
    (r : ResultEntry) (hw : WfIndex s)
    (hr : r ∈ (search s q page pp).2.results) :
    r.path ∈ s.filesList.map FileRef.path := by
  simp only [search] at hr
  have hr2 := List.mem_of_mem_drop (List.mem_of_mem_take hr)
  rcases List.mem_map.mp hr2 with ⟨f, hf, rfl⟩
  exact mem_matchedFiles_path s q f hw ((mem_sortByMatches _ _).mp hf)

/-! ### Per-file update stability -/

theorem removeFile_files_get_ne (s : FileIndex) (p x : List Char) (hx : ¬ x = p) :
    mapGet (removeFile s p).files x = mapGet s.files x := by
  unfold removeFile
  cases hm : mapGet s.files p with
  | none => rfl
  | some fd =>
    cases hf : findPathIdx p s.filesList with
    | none => rfl
    | some idx =>
      show mapGet (mapDelete s.files p) x = mapGet s.files x
      rw [mapGet_mapDelete, if_neg hx]

theorem removeFile_files_get_self (s : FileIndex) (p : List Char) (hw : WfIndex s) :
    mapGet (removeFile s p).files p = none := by
  unfold removeFile
  cases hm : mapGet s.files p with
  | none => exact hm
  | some fd =>
    have hsome := findPathIdx_isSome p s.filesList (by
      have := hw.covered p (by rw [hm]; rfl)
      rcases List.mem_map.mp this with ⟨e, he, hep⟩
      exact ⟨e, he, hep⟩)
    cases hf : findPathIdx p s.filesList with
    | none => rw [hf] at hsome; cases hsome
    | some idx =>
      show mapGet (mapDelete s.files p) p = none
      rw [mapGet_mapDelete, if_pos rfl]

theorem mapGet_eq_none_iff {α : Type} (m : List (List Char × α)) (k : List Char) :
    mapGet m k = none ↔ k ∉ m.map Prod.fst := by
  induction m with
  | nil => simp [mapGet]
  | cons e rest ih =>
    rw [List.map_cons, List.mem_cons, mapGet]
    by_cases he : e.1 = k
    · rw [if_pos he]
      constructor
      · intro h; cases h
      · intro h; exact absurd (Or.inl he.symm) h
    · rw [if_neg he, ih]
      constructor
      · intro h hc
        rcases hc with hc | hc
        · exact he hc.symm
        · exact h hc
      · intro h hc
        exact h (Or.inr hc)

theorem mapGet_split {α : Type} (m : List (List Char × α)) (k : List Char) (v : α)
    (hnd : (m.map Prod.fst).Nodup) (h : mapGet m k = some v) :
    ∃ l1 l2, m = l1 ++ (k, v) :: l2 ∧ k ∉ l1.map Prod.fst ∧ k ∉ l2.map Prod.fst := by
  induction m with
  | nil => simp [mapGet] at h
  | cons e rest ih =>
    by_cases he : e.1 = k
    · rw [mapGet, if_pos he] at h
      injection h with h
      refine ⟨[], rest, ?_, ?_, ?_⟩
      · obtain ⟨e1, e2⟩ := e
        simp only at he h
        subst he
        subst h
        rfl
      · exact List.not_mem_nil k
      · rw [List.map_cons, List.nodup_cons] at hnd
        exact he ▸ hnd.1
    · rw [mapGet, if_neg he] at h
      rw [List.map_cons, List.nodup_cons] at hnd
      obtain ⟨l1, l2, rfl, h1, h2⟩ := ih hnd.2 h
      refine ⟨e :: l1, l2, rfl, ?_, h2⟩
      simp only [List.map_cons, List.mem_cons]
      push_neg
      exact ⟨fun hc => he hc.symm, h1⟩

/-! ### Synchronization lemmas -/

theorem removeFile_files_none (s : FileIndex) (p x : List Char)
    (h : mapGet s.files x = none) : mapGet (removeFile s p).files x = none := by
  by_cases hxp : x = p
  · subst hxp
    simp only [removeFile, h]
  · rw [removeFile_files_get_ne s p x hxp]
    exact h

theorem wf_syncPass1 (oldM : List (List Char × Int))
    (rf : List Char → Option (List Char)) :
    ∀ (l : List (List Char × Int)) (s : FileIndex), WfIndex s →
      WfIndex (syncPass1 oldM rf s l) := by
  intro l
  induction l with
  | nil => intro s hw; exact hw
  | cons e rest ih =>
    intro s hw
    obtain ⟨p, m⟩ := e
    have hw1 : WfIndex (if (mapGet s.files p).isSome then removeFile s p else s) := by
      by_cases hp : (mapGet s.files p).isSome = true
      · rw [if_pos hp]; exact wf_removeFile s p hw
      · rw [if_neg hp]; exact hw
    have hnone : mapGet
        (if (mapGet s.files p).isSome then removeFile s p else s).files p = none := by
      by_cases hp : (mapGet s.files p).isSome = true
      · rw [if_pos hp]; exact removeFile_files_get_self s p hw
      · rw [if_neg hp]
        cases hgg : mapGet s.files p with
        | none => rfl
        | some v => rw [hgg] at hp; simp at hp
    by_cases hc : mapGet oldM p = some m
    · rw [show syncPass1 oldM rf s ((p, m) :: rest) = syncPass1 oldM rf s rest from by
        simp only [syncPass1, if_pos hc]]
      exact ih s hw
    · cases hrf : rf p with
      | some c =>
        rw [show syncPass1 oldM rf s ((p, m) :: rest) = syncPass1 oldM rf
            (addFile (if (mapGet s.files p).isSome then removeFile s p else s) p
              (basename p) c m) rest from by
          simp only [syncPass1, if_neg hc, hrf]]
        exact ih _ (wf_addFile _ p (basename p) c m hw1 hnone)
      | none =>
        rw [show syncPass1 oldM rf s ((p, m) :: rest) = syncPass1 oldM rf
            (if (mapGet s.files p).isSome then removeFile s p else s) rest from by
          simp only [syncPass1, if_neg hc, hrf]]
        exact ih _ hw1

theorem syncPass1_get_stable (oldM : List (List Char × Int))
    (rf : List Char → Option (List Char)) (x : List Char) :
    ∀ (l : List (List Char × Int)) (s : FileIndex), x ∉ l.map Prod.fst →
      mapGet (syncPass1 oldM rf s l).files x = mapGet s.files x := by
  intro l
  induction l with
  | nil => intro s _; rfl
  | cons e rest ih =>
    intro s hx
    obtain ⟨p, m⟩ := e
    rw [List.map_cons, List.mem_cons] at hx
    push_neg at hx
    obtain ⟨hpx, hxr⟩ := hx
    replace hpx : ¬ x = p := hpx
    have h1 : mapGet (if (mapGet s.files p).isSome then removeFile s p
        else s).files x = mapGet s.files x := by
      by_cases hp : (mapGet s.files p).isSome = true
      · rw [if_pos hp]; exact removeFile_files_get_ne s p x hpx
      · rw [if_neg hp]
    by_cases hc : mapGet oldM p = some m
    · rw [show syncPass1 oldM rf s ((p, m) :: rest) = syncPass1 oldM rf s rest from by
        simp only [syncPass1, if_pos hc]]
      exact ih s hxr
    · cases hrf : rf p with
      | some c =>
        rw [show syncPass1 oldM rf s ((p, m) :: rest) = syncPass1 oldM rf
            (addFile (if (mapGet s.files p).isSome then removeFile s p else s) p
              (basename p) c m) rest from by
          simp only [syncPass1, if_neg hc, hrf]]
        rw [ih _ hxr, addFile_files_get, if_neg hpx, h1]
      | none =>
        rw [show syncPass1 oldM rf s ((p, m) :: rest) = syncPass1 oldM rf
            (if (mapGet s.files p).isSome then removeFile s p else s) rest from by
          simp only [syncPass1, if_neg hc, hrf]]
        rw [ih _ hxr, h1]

theorem syncPass1_append (oldM : List (List Char × Int))
    (rf : List Char → Option (List Char)) :
    ∀ (l1 l2 : List (List Char × Int)) (s : FileIndex),
      syncPass1 oldM rf s (l1 ++ l2) =
        syncPass1 oldM rf (syncPass1 oldM rf s l1) l2 := by
  intro l1
  induction l1 with
  | nil => intro l2 s; rfl
  | cons e rest ih =>
    intro l2 s
    obtain ⟨p, m⟩ := e
    by_cases hc : mapGet oldM p = some m
    · simp only [List.cons_append, syncPass1, if_pos hc]
      exact ih l2 s
    · simp only [List.cons_append, syncPass1, if_neg hc]
      cases hrf : rf p <;> simp only [hrf] <;> apply ih

theorem wf_syncPass2 (curM : List (List Char × Int)) :
    ∀ (l : List (List Char)) (s : FileIndex), WfIndex s →
      WfIndex (syncPass2 curM s l) := by
  intro l
  induction l with
  | nil => intro s hw; exact hw
  | cons p rest ih =>
    intro s hw
    show WfIndex (syncPass2 curM
      (if (mapGet curM p).isSome then s else removeFile s p) rest)
    apply ih
    by_cases hp : (mapGet curM p).isSome = true
    · rw [if_pos hp]; exact hw
    · rw [if_neg hp]; exact wf_removeFile s p hw

theorem syncPass2_get_incur (curM : List (List Char × Int)) (x : List Char)
    (hx : (mapGet curM x).isSome = true) :
    ∀ (l : List (List Char)) (s : FileIndex),
      mapGet (syncPass2 curM s l).files x = mapGet s.files x := by
  intro l
  induction l with
  | nil => intro s; rfl
  | cons p rest ih =>
    intro s
    show mapGet (syncPass2 curM
      (if (mapGet curM p).isSome then s else removeFile s p) rest).files x = _
    rw [ih]
    by_cases hp : (mapGet curM p).isSome = true
    · rw [if_pos hp]
    · rw [if_neg hp]
      have hpx : ¬ x = p := fun hcc => hp (hcc ▸ hx)
      exact removeFile_files_get_ne s p x hpx

theorem syncPass2_get_none (curM : List (List Char × Int)) (x : List Char) :
    ∀ (l : List (List Char)) (s : FileIndex), mapGet s.files x = none →
      mapGet (syncPass2 curM s l).files x = none := by
  intro l
  induction l with
  | nil => intro s h; exact h
  | cons p rest ih =>
    intro s h
    show mapGet (syncPass2 curM
      (if (mapGet curM p).isSome then s else removeFile s p) rest).files x = none
    apply ih
    by_cases hp : (mapGet curM p).isSome = true
    · rw [if_pos hp]; exact h
    · rw [if_neg hp]; exact removeFile_files_none s p x h

theorem syncPass2_get_removed (curM : List (List Char × Int)) (x : List Char)
    (hcur : mapGet curM x = none) :
    ∀ (l : List (List Char)) (s : FileIndex), WfIndex s → x ∈ l →
      mapGet (syncPass2 curM s l).files x = none := by
  intro l
  induction l with
  | nil => intro s _ hx; cases hx
  | cons p rest ih =>
    intro s hw hx
    show mapGet (syncPass2 curM
      (if (mapGet curM p).isSome then s else removeFile s p) rest).files x = none
    have hw2 : WfIndex (if (mapGet curM p).isSome then s else removeFile s p) := by
      by_cases hp : (mapGet curM p).isSome = true
      · rw [if_pos hp]; exact hw
      · rw [if_neg hp]; exact wf_removeFile s p hw
    rcases List.mem_cons.mp hx with rfl | hx2
    · rw [if_neg (by rw [hcur]; simp)]
      exact syncPass2_get_none curM x rest _ (removeFile_files_get_self s x hw)
    · exact ih _ hw2 hx2

theorem syncPass2_get_notin (curM : List (List Char × Int)) (x : List Char) :
    ∀ (l : List (List Char)) (s : FileIndex), x ∉ l →
      mapGet (syncPass2 curM s l).files x = mapGet s.files x := by
  intro l
  induction l with
  | nil => intro s _; rfl
  | cons p rest ih =>
    intro s hx
    rw [List.mem_cons] at hx
    push_neg at hx
    show mapGet (syncPass2 curM
      (if (mapGet curM p).isSome then s else removeFile s p) rest).files x = _
    rw [ih _ hx.2]
    by_cases hp : (mapGet curM p).isSome = true
    · rw [if_pos hp]
    · rw [if_neg hp]
      exact removeFile_files_get_ne s p x hx.1

theorem wf_deltaSync (s : FileIndex) (oldM curM : List (List Char × Int))
    (rf : List Char → Option (List Char)) (hw : WfIndex s) :
    WfIndex (deltaSync s oldM curM rf) :=
  wf_syncPass2 curM _ _ (wf_syncPass1 oldM rf curM s hw)

theorem deltaSync_get_unchanged (s : FileIndex) (oldM curM : List (List Char × Int))
    (rf : List Char → Option (List Char)) (p : List Char) (m : Int)
    (hnd : (curM.map Prod.fst).Nodup) (hcur : mapGet curM p = some m)
    (hold : mapGet oldM p = some m) :
    mapGet (deltaSync s oldM curM rf).files p = mapGet s.files p := by
  obtain ⟨l1, l2, rfl, h1, h2⟩ := mapGet_split curM p m hnd hcur
  rw [deltaSync, syncPass2_get_incur _ _ (by rw [hcur]; rfl)]
  rw [syncPass1_append]
  rw [show syncPass1 oldM rf (syncPass1 oldM rf s l1) ((p, m) :: l2) =
      syncPass1 oldM rf (syncPass1 oldM rf s l1) l2 from by
    simp only [syncPass1, if_pos hold]]
  rw [syncPass1_get_stable _ _ _ l2 _ h2, syncPass1_get_stable _ _ _ l1 _ h1]

theorem deltaSync_get_changed (s : FileIndex) (oldM curM : List (List Char × Int))
    (rf : List Char → Option (List Char)) (p c : List Char) (m : Int)
    (hnd : (curM.map Prod.fst).Nodup) (hcur : mapGet curM p = some m)
    (hold : ¬ mapGet oldM p = some m) (hrf : rf p = some c) :
    mapGet (deltaSync s oldM curM rf).files p = some ⟨basename p, c, m⟩ := by
  obtain ⟨l1, l2, rfl, h1, h2⟩ := mapGet_split curM p m hnd hcur
  rw [deltaSync, syncPass2_get_incur _ _ (by rw [hcur]; rfl)]
  rw [syncPass1_append]
  rw [show syncPass1 oldM rf (syncPass1 oldM rf s l1) ((p, m) :: l2) =
      syncPass1 oldM rf
        (addFile (if (mapGet (syncPass1 oldM rf s l1).files p).isSome
            then removeFile (syncPass1 oldM rf s l1) p
            else syncPass1 oldM rf s l1) p (basename p) c m) l2 from by
    simp only [syncPass1, if_neg hold, hrf]]
  rw [syncPass1_get_stable _ _ _ l2 _ h2, addFile_files_get, if_pos rfl]

theorem deltaSync_get_changed_fail (s : FileIndex)
    (oldM curM : List (List Char × Int)) (rf : List Char → Option (List Char))
    (p : List Char) (m : Int) (hw : WfIndex s)
    (hnd : (curM.map Prod.fst).Nodup) (hcur : mapGet curM p = some m)
    (hold : ¬ mapGet oldM p = some m) (hrf : rf p = none) :
    mapGet (deltaSync s oldM curM rf).files p = none := by
  obtain ⟨l1, l2, rfl, h1, h2⟩ := mapGet_split curM p m hnd hcur
  rw [deltaSync, syncPass2_get_incur _ _ (by rw [hcur]; rfl)]
  rw [syncPass1_append]
  have hw1 : WfIndex (syncPass1 oldM rf s l1) := wf_syncPass1 oldM rf l1 s hw
  rw [show syncPass1 oldM rf (syncPass1 oldM rf s l1) ((p, m) :: l2) =
      syncPass1 oldM rf
        (if (mapGet (syncPass1 oldM rf s l1).files p).isSome
          then removeFile (syncPass1 oldM rf s l1) p
          else syncPass1 oldM rf s l1) l2 from by
    simp only [syncPass1, if_neg hold, hrf]]
  rw [syncPass1_get_stable _ _ _ l2 _ h2]
  by_cases hp : (mapGet (syncPass1 oldM rf s l1).files p).isSome = true
  · rw [if_pos hp]
    exact removeFile_files_get_self _ p hw1
  · rw [if_neg hp]
    cases hgg : mapGet (syncPass1 oldM rf s l1).files p with
    | none => rfl
    | some v => rw [hgg] at hp; simp at hp

theorem deltaSync_get_deleted (s : FileIndex) (oldM curM : List (List Char × Int))
    (rf : List Char → Option (List Char)) (p : List Char) (hw : WfIndex s)
    (hcur : mapGet curM p = none) (hpold : p ∈ oldM.map Prod.fst) :
    mapGet (deltaSync s oldM curM rf).files p = none := by
  rw [deltaSync]
  exact syncPass2_get_removed curM p hcur _ _ (wf_syncPass1 oldM rf curM s hw) hpold

theorem deltaSync_get_other (s : FileIndex) (oldM curM : List (List Char × Int))
    (rf : List Char → Option (List Char)) (p : List Char)
    (hcurn : p ∉ curM.map Prod.fst) (holdn : p ∉ oldM.map Prod.fst) :
    mapGet (deltaSync s oldM curM rf).files p = mapGet s.files p := by
  rw [deltaSync, syncPass2_get_notin _ _ _ _ holdn,
    syncPass1_get_stable _ _ _ _ _ hcurn]

/-! ### Helper facts for removal -/

theorem removeFile_absent (s : FileIndex) (p : List Char)
    (h : mapGet s.files p = none) : removeFile s p = s := by
  simp only [removeFile, h]

theorem removeFile_present_facts (s : FileIndex) (p : List Char) (fd : FileData)
    (hw : WfIndex s) (hm : mapGet s.files p = some fd) :
    (removeFile s p).filesList.length + 1 = s.filesList.length ∧
    p ∉ (removeFile s p).filesList.map FileRef.path := by
  have hsome := findPathIdx_isSome p s.filesList (by
    have := hw.covered p (by rw [hm]; rfl)
    rcases List.mem_map.mp this with ⟨e, he, hep⟩
    exact ⟨e, he, hep⟩)
  cases hf : findPathIdx p s.filesList with
  | none => rw [hf] at hsome; cases hsome
  | some idx =>
    obtain ⟨hidx, hpath⟩ := findPathIdx_some p s.filesList idx hf
    have hred : (removeFile s p).filesList = s.filesList.eraseIdx idx := by
      simp only [removeFile, hm, hf]
      rfl
    rw [hred]
    constructor
    · rw [List.length_eraseIdx, if_pos hidx]
      omega
    · rw [eraseIdx_map]
      have hmaplen : idx < (s.filesList.map FileRef.path).length := by simpa using hidx
      have hmapidx : (s.filesList.map FileRef.path)[idx] = p := by
        rw [List.getElem_map]
        exact hpath
      have := not_mem_eraseIdx_self (s.filesList.map FileRef.path) idx
        (by simpa using hidx) hw.nodupPaths
      rwa [hmapidx] at this

/-! ### The claims -/

/-- Claim C1: for every query with two or more CJK characters, search runs in
strict phrase mode: a document ordinal is in the candidate set exactly when
the line-by-line count of non-overlapping occurrences of the literal query
substring (`phraseCount`) in that document's content is positive. -/
theorem claim1_phrase_mode (s : FileIndex) (q : List Char) (h2 : 2 ≤ cjkCount q) :
    ∀ i : Nat, i ∈ searchCandidates s q ↔
      (i < s.filesList.length ∧ 0 < phraseCount q (contentOf s i)) := by
  have hm : isMultiCJK q = true := by
    simp only [isMultiCJK, decide_eq_true_eq]
    omega
  intro i
  rw [searchCandidates_phrase s q hm, mem_map_index_phraseMatches]

/-- Claim C1 witness: the query 天地人 (three contiguous CJK characters)
matches document X, where they occur as a contiguous run on one line, and
does not match document Y, where the same characters are scattered over
different lines. -/
theorem claim1_witness :
    2 ≤ cjkCount exQueryC1 ∧
    0 ∈ searchCandidates exIdxC1 exQueryC1 ∧
    1 ∉ searchCandidates exIdxC1 exQueryC1 := by
  refine ⟨by decide, ?_, by decide⟩
  exact (claim1_phrase_mode exIdxC1 exQueryC1 (by decide) 0).mpr (by decide)

/-- Claim C2: for every query with at most one CJK character, search is in
token mode: the candidate set is the union over the query tokens of the
posting lists (never the intersection), and every candidate is kept in the
result list — the reported total equals the number of candidates, even when
a candidate's substring match count is zero. -/
theorem claim2_token_mode (s : FileIndex) (q : List Char) (h1 : cjkCount q ≤ 1) :
    (∀ i : Nat, i ∈ searchCandidates s q ↔
      ∃ t ∈ tokenize q, i ∈ wiGet s.wordIndex t) ∧
    (∀ (page : Int) (pp : Nat),
      (search s q page pp).2.total = (searchCandidates s q).length) := by
  have hnot : ¬ (1 < cjkCount q) := by omega
  have hm : isMultiCJK q = false := by
    simp [isMultiCJK, hnot]
  exact ⟨fun i => by rw [searchCandidates_token s q hm, mem_tokenCandidates],
    fun page pp => search_total_eq s q page pp⟩

/-- Claim C2 witness: querying "alpha beta" against a corpus where document A
contains only "alpha" and document B only "beta" returns both as candidates
(OR semantics), and both stay in the result list (total = 2) even though
neither contains the literal substring "alpha beta". -/
theorem claim2_witness :
    cjkCount "alpha beta".toList ≤ 1 ∧
    0 ∈ searchCandidates exIdxC2 "alpha beta".toList ∧
    1 ∈ searchCandidates exIdxC2 "alpha beta".toList ∧
    (search exIdxC2 "alpha beta".toList 1 15).2.total = 2 := by
  have h := claim2_token_mode exIdxC2 "alpha beta".toList (by decide)
  exact ⟨by decide, (h.1 0).mpr (by decide), (h.1 1).mpr (by decide),
    (h.2 1 15).trans (by decide)⟩

/-- Claim C3 counterexample: the Katakana letter ア (U+30A2) lies in the
Katakana block U+30A0–U+30FF, which the claim includes among the CJK ranges,
but the source's character class omits Katakana, so tokenizing the text "ア"
yields no token at all — refuting the claim as stated. -/
theorem claim3_counterexample :
    (0x30A0 ≤ 'ア'.toNat ∧ 'ア'.toNat ≤ 0x30FF) ∧ 'ア' ∈ ['ア'] ∧
    ['ア'] ∉ tokenize ['ア'] := by decide

/-- Claim C3 (amended — the source's CJK class has Han ideographs, Hiragana
and Hangul syllables but NOT Katakana): tokenize returns a duplicate-free
set containing a single-character token for every character of the text in
the matched CJK ranges, plus every case-folded word obtained by splitting
the lower-cased text on `\w`-word boundaries. -/
theorem claim3_tokenize (text : List Char) :
    (tokenize text).Nodup ∧
    (∀ c ∈ text, isCJK c = true → [c] ∈ tokenize text) ∧
    (∀ w ∈ splitWords (text.map Char.toLower), w ∈ tokenize text) := by
  refine ⟨nodup_foldl_addElem _ _ List.nodup_nil, ?_, ?_⟩
  · intro c hc hcjk
    rw [tokenize, mem_foldl_addElem]
    right
    rw [List.mem_append]
    left
    exact List.mem_map_of_mem _ (List.mem_filter.mpr ⟨hc, hcjk⟩)
  · intro w hw2
    rw [tokenize, mem_foldl_addElem]
    right
    rw [List.mem_append]
    right
    exact hw2

/-- Claim C3 witness: tokenizing "Hello 世界" yields a duplicate-free set
containing the CJK character token 世 and the case-folded word "hello". -/
theorem claim3_witness :
    (tokenize "Hello 世界".toList).Nodup ∧
    ['世'] ∈ tokenize "Hello 世界".toList ∧
    "hello".toList ∈ tokenize "Hello 世界".toList := by
  have h := claim3_tokenize "Hello 世界".toList
  exact ⟨h.1, h.2.1 '世' (by decide) (by decide), h.2.2 "hello".toList (by decide)⟩

/-- Claim C4: the startup delta synchronization.  A current path whose
timestamp equals the persisted one keeps its document entry untouched — for
every reader, including one that cannot read it at all, so its content is
never re-read.  A new or changed path is (re)added with freshly read content
and the new timestamp.  A persisted path absent from the scan is removed.
Paths in neither table are untouched. -/
theorem claim4_deltaSync (s : FileIndex) (oldM curM : List (List Char × Int))
    (rf : List Char → Option (List Char)) (hw : WfIndex s)
    (hnd : (curM.map Prod.fst).Nodup) :
    (∀ (p : List Char) (m : Int), mapGet curM p = some m → mapGet oldM p = some m →
      mapGet (deltaSync s oldM curM rf).files p = mapGet s.files p) ∧
    (∀ (p : List Char) (m : Int) (c : List Char), mapGet curM p = some m →
      ¬ mapGet oldM p = some m → rf p = some c →
      mapGet (deltaSync s oldM curM rf).files p = some ⟨basename p, c, m⟩) ∧
    (∀ p : List Char, mapGet curM p = none → p ∈ oldM.map Prod.fst →
      mapGet (deltaSync s oldM curM rf).files p = none) ∧
    (∀ p : List Char, p ∉ curM.map Prod.fst → p ∉ oldM.map Prod.fst →
      mapGet (deltaSync s oldM curM rf).files p = mapGet s.files p) :=
  ⟨fun p m hc ho => deltaSync_get_unchanged s oldM curM rf p m hnd hc ho,
   fun p m c hc ho hr => deltaSync_get_changed s oldM curM rf p c m hnd hc ho hr,
   fun p hc ho => deltaSync_get_deleted s oldM curM rf p hw hc ho,
   fun p hc ho => deltaSync_get_other s oldM curM rf p hc ho⟩

/-- Claim C4 witness: prior cache {a.md: 1, b.md: 2}, current scan
{a.md: 1, c.md: 3}; the reader fails on everything except c.md, yet a.md's
entry survives untouched (proving it is never re-read), c.md is added with
fresh content, and b.md is removed. -/
theorem claim4_witness :
    mapGet (deltaSync exIdxC4 exOldC4 exCurC4 exRfC4).files "a.md".toList =
      some ⟨"a.md".toList, "AA".toList, 1⟩ ∧
    mapGet (deltaSync exIdxC4 exOldC4 exCurC4 exRfC4).files "c.md".toList =
      some ⟨"c.md".toList, "CC".toList, 3⟩ ∧
    mapGet (deltaSync exIdxC4 exOldC4 exCurC4 exRfC4).files "b.md".toList = none := by
  have h := claim4_deltaSync exIdxC4 exOldC4 exCurC4 exRfC4
    (wf_runOps exOpsC4 (by decide)) (by decide)
  refine ⟨?_, ?_, ?_⟩
  · exact (h.1 "a.md".toList 1 (by decide) (by decide)).trans (by decide)
  · exact (h.2.1 "c.md".toList 3 "CC".toList (by decide) (by decide)
      (by decide)).trans (by decide)
  · exact h.2.2.1 "b.md".toList (by decide) (by decide)

/-- Claim C5: `removeFile` on an absent path is a no-op; on a present path
it removes exactly that document — the document table length decreases by
exactly one — and after the full posting-list rebuild no query ever reports
the removed path among its results. -/
theorem claim5_removeFile (s : FileIndex) (p : List Char) (hw : WfIndex s) :
    (mapGet s.files p = none → removeFile s p = s) ∧
    (∀ fd : FileData, mapGet s.files p = some fd →
      (removeFile s p).filesList.length + 1 = s.filesList.length ∧
      ∀ (q : List Char) (page : Int) (pp : Nat) (r : ResultEntry),
        r ∈ (search (removeFile s p) q page pp).2.results → ¬ r.path = p) := by
  refine ⟨fun h => removeFile_absent s p h, fun fd hm => ?_⟩
  obtain ⟨hlen, hnot⟩ := removeFile_present_facts s p fd hw hm
  refine ⟨hlen, fun q page pp r hr hrp => ?_⟩
  have hmem := search_results_path _ q page pp r (wf_removeFile s p hw) hr
  rw [hrp] at hmem
  exact hnot hmem

/-- Claim C5 witness: removing a.md from a two-document index shrinks the
table by one, and a query both documents used to match no longer reports
a.md. -/
theorem claim5_witness :
    (removeFile exIdxC5 "a.md".toList).filesList.length + 1 =
      exIdxC5.filesList.length ∧
    "a.md".toList ∉
      ((search (removeFile exIdxC5 "a.md".toList) "common".toList 1 15).2.results.map
        ResultEntry.path) := by
  have h := (claim5_removeFile exIdxC5 "a.md".toList
    (wf_runOps exOpsC5 (by decide))).2
    ⟨"a.md".toList, "alpha common".toList, 1⟩ (by decide)
  refine ⟨h.1, ?_⟩
  intro hmem
  obtain ⟨r, hr, hrp⟩ := List.mem_map.mp hmem
  exact h.2 "common".toList 1 15 r hr hrp

/-- Claim C6 counterexample: adding the same path twice (which the claim's
"every sequence of addDocument and removeDocument operations" permits)
leaves a posting entry — token "x" at ordinal 0 — whose ordinal is a valid
table position but whose document content, resolved through the path-keyed
map, no longer tokenizes to that token: the claim as stated is false. -/
theorem claim6_counterexample :
    0 ∈ wiGet (runOps exOpsC6bad).wordIndex "x".toList ∧
    0 < (runOps exOpsC6bad).filesList.length ∧
    "x".toList ∉ tokenize (contentOf (runOps exOpsC6bad) 0) := by decide

/-- Claim C6 (amended — restricted to sequences that never add a path
already present in the index, the discipline every caller in the source
follows): after any such sequence from the empty index, an ordinal is in the
posting list of a token exactly when it is a valid current table position
whose document's tokenization contains that token (ordinals being positions,
they are exactly 0..N-1). -/
theorem claim6_ordinals (ops : List Op) (hf : freshAdds emptyIndex ops = true) :
    ∀ (w : List Char) (i : Nat), i ∈ wiGet (runOps ops).wordIndex w ↔
      (i < (runOps ops).filesList.length ∧
        w ∈ tokenize (contentOf (runOps ops) i)) :=
  (wf_runOps ops hf).postings

/-- Claim C6 witness: after add a.md, add b.md, remove a.md, the rebuilt
posting list maps "beta" to ordinal 0, the renumbered position of b.md. -/
theorem claim6_witness :
    0 ∈ wiGet (runOps exOpsC6).wordIndex "beta".toList ∧
    0 < (runOps exOpsC6).filesList.length ∧
    "beta".toList ∈ tokenize (contentOf (runOps exOpsC6) 0) := by
  have h := claim6_ordinals exOpsC6 (by decide)
  exact ⟨(h "beta".toList 0).mpr (by decide), by decide, by decide⟩

/-- Claim C7: serializing and deserializing a well-formed index reproduces
the document map and the document table exactly (paths, names, content,
timestamps) and rebuilds a posting list that is functionally equivalent:
every query has the same candidate set. -/
theorem claim7_serialize_roundtrip (s : FileIndex) (hw : WfIndex s) :
    (deserialize (serialize s)).files = s.files ∧
    (deserialize (serialize s)).filesList = s.filesList ∧
    ∀ (q : List Char) (i : Nat),
      i ∈ searchCandidates (deserialize (serialize s)) q ↔
        i ∈ searchCandidates s q := by
  refine ⟨rfl, rfl, fun q i => ?_⟩
  have hkey : ∀ (t : List Char) (j : Nat),
      j ∈ wiGet (deserialize (serialize s)).wordIndex t ↔
        j ∈ wiGet s.wordIndex t := by
    intro t j
    rw [hw.postings]
    exact mem_wiGet_rebuild ⟨s.files, [], s.filesList⟩ t j
  by_cases hm : isMultiCJK q
  · rw [searchCandidates_phrase _ _ hm, searchCandidates_phrase _ _ hm,
      mem_map_index_phraseMatches, mem_map_index_phraseMatches]
    exact Iff.rfl
  · have hm2 : isMultiCJK q = false := by simpa using hm
    rw [searchCandidates_token _ _ hm2, searchCandidates_token _ _ hm2,
      mem_tokenCandidates, mem_tokenCandidates]
    constructor
    · rintro ⟨t, ht, hj⟩
      exact ⟨t, ht, (hkey t i).mp hj⟩
    · rintro ⟨t, ht, hj⟩
      exact ⟨t, ht, (hkey t i).mpr hj⟩

/-- Claim C7 witness: the round trip on a concrete two-document index keeps
the document map and table and the candidates of a concrete query. -/
theorem claim7_witness :
    (deserialize (serialize exIdxC7)).files = exIdxC7.files ∧
    (deserialize (serialize exIdxC7)).filesList = exIdxC7.filesList ∧
    (0 ∈ searchCandidates (deserialize (serialize exIdxC7)) "beta".toList ↔
      0 ∈ searchCandidates exIdxC7 "beta".toList) := by
  have h := claim7_serialize_roundtrip exIdxC7 (wf_runOps exOpsC7 (by decide))
  exact ⟨h.1, h.2.1, h.2.2 "beta".toList 0⟩

/-- Claim C8: pagination.  `totalPages` is the ceiling of total/pageSize;
the returned page is the requested page clamped into [1, totalPages]; an
empty result set yields totalPages = 0 and page = 1 for any requested page;
the returned page holds min(pageSize, total - start) results; and a
non-empty query goes through `searchFiles` with the default page size 15. -/
theorem claim8_pagination (s : FileIndex) (q : List Char) (page : Int) (pp : Nat) :
    (search s q page pp).2.totalPages = ((search s q page pp).2.total + pp - 1) / pp ∧
    (search s q page pp).2.page =
      max 1 (min page (((search s q page pp).2.totalPages : Nat) : Int)) ∧
    ((search s q page pp).2.total = 0 →
      (search s q page pp).2.totalPages = 0 ∧ (search s q page pp).2.page = 1) ∧
    (search s q page pp).2.results.length =
      min pp ((search s q page pp).2.total -
        ((((search s q page pp).2.page) - 1) * (pp : Int)).toNat) ∧
    (¬ (trimChars q).length = 0 →
      (searchFiles s q page).2 = (search s (trimChars q) page 15).2) := by
  refine ⟨rfl, rfl, ?_, ?_, ?_⟩
  · intro h
    have htp : (search s q page pp).2.totalPages = 0 := by
      have heq : (search s q page pp).2.totalPages =
          ((search s q page pp).2.total + pp - 1) / pp := rfl
      rw [heq, h]
      cases pp with
      | zero => simp
      | succ k =>
        apply Nat.div_eq_of_lt
        omega
    refine ⟨htp, ?_⟩
    have hpage : (search s q page pp).2.page =
        max 1 (min page (((search s q page pp).2.totalPages : Nat) : Int)) := rfl
    rw [hpage, htp]
    have hmin : min page (((0 : Nat) : Int)) ≤ 1 :=
      le_trans (min_le_right _ _) (by norm_num)
    exact max_eq_left hmin
  · simp only [search, List.length_take, List.length_drop]
  · intro h
    rw [searchFiles, if_neg h]

/-- Claim C8 witness: with 16 matching documents and page size 15,
requesting page 2 returns exactly 1 result and totalPages = 2; with a query
matching nothing, any requested page comes back as page = 1 with
totalPages = 0. -/
theorem claim8_witness :
    (search exIdxC8 "hit".toList 2 15).2.total = 16 ∧
    (search exIdxC8 "hit".toList 2 15).2.totalPages = 2 ∧
    (search exIdxC8 "hit".toList 2 15).2.page = 2 ∧
    (search exIdxC8 "hit".toList 2 15).2.results.length = 1 ∧
    (search exIdxC8 "miss".toList 7 15).2.totalPages = 0 ∧
    (search exIdxC8 "miss".toList 7 15).2.page = 1 := by
  have h1 := claim8_pagination exIdxC8 "hit".toList 2 15
  have h2 := claim8_pagination exIdxC8 "miss".toList 7 15
  refine ⟨by decide, (h1.1).trans (by decide), (h1.2.1).trans (by decide),
    (h1.2.2.2.1).trans (by decide), ?_, ?_⟩
  · exact (h2.2.2.1 (by decide)).1
  · exact (h2.2.2.1 (by decide)).2

/-- Claim C9 counterexample: a.md is already indexed (with its old content),
its timestamp changed, and its read now fails.  The claim says the failure
does not remove already-indexed documents, but the startup synchronization
removes a.md before attempting the read and the failed read leaves it
removed. -/
theorem claim9_counterexample :
    mapGet exIdxC9.files "a.md".toList = some ⟨"a.md".toList, "old".toList, 1⟩ ∧
    mapGet (deltaSync exIdxC9 exOldC9 exCurC9 exRfC9).files "a.md".toList =
      none := by decide

/-- Claim C9 (amended): in the startup synchronization a failed read is
caught per file — every other changed file is still read and added, whatever
the reader does elsewhere — but a changed file that was already indexed is
removed before the read and a failed read leaves it removed.  In the
scheduled background rebuild there is no per-file catch: a failed read
aborts the scan, leaving the removal applied and the rest unprocessed. -/
theorem claim9_read_failures :
    (∀ (s : FileIndex) (oldM curM : List (List Char × Int))
      (rf : List Char → Option (List Char)) (q : List Char) (mq : Int)
      (cq : List Char),
      (curM.map Prod.fst).Nodup → mapGet curM q = some mq →
      ¬ mapGet oldM q = some mq → rf q = some cq →
      mapGet (deltaSync s oldM curM rf).files q = some ⟨basename q, cq, mq⟩) ∧
    (∀ (s : FileIndex) (oldM curM : List (List Char × Int))
      (rf : List Char → Option (List Char)) (p : List Char) (m : Int),
      WfIndex s → (curM.map Prod.fst).Nodup → mapGet curM p = some m →
      ¬ mapGet oldM p = some m → rf p = none →
      mapGet (deltaSync s oldM curM rf).files p = none) ∧
    (∀ (s : FileIndex) (oldM : List (List Char × Int))
      (rf : List Char → Option (List Char)) (p : List Char) (m : Int)
      (rest : List (List Char × Int)),
      ¬ mapGet oldM p = some m → rf p = none →
      rebuildPass1 oldM rf s ((p, m) :: rest) =
        ((if (mapGet s.files p).isSome then removeFile s p else s), true)) := by
  refine ⟨?_, ?_, ?_⟩
  · intro s oldM curM rf q mq cq hnd hc ho hr
    exact deltaSync_get_changed s oldM curM rf q cq mq hnd hc ho hr
  · intro s oldM curM rf p m hw hnd hc ho hr
    exact deltaSync_get_changed_fail s oldM curM rf p m hw hnd hc ho hr
  · intro s oldM rf p m rest ho hr
    simp only [rebuildPass1, if_neg ho, hr]

/-- Claim C9 witness: with a.md changed-but-unreadable and b.md new and
readable, the startup sync still adds b.md, a.md ends up removed, and the
scheduled rebuild's pass aborts right at a.md with only the removal done. -/
theorem claim9_witness :
    mapGet (deltaSync exIdxC9 exOldC9 exCurC9 exRfC9).files "b.md".toList =
      some ⟨"b.md".toList, "fresh".toList, 3⟩ ∧
    mapGet (deltaSync exIdxC9 exOldC9 exCurC9 exRfC9).files "a.md".toList = none ∧
    rebuildPass1 exOldC9 exRfC9 exIdxC9 exCurC9 =
      (removeFile exIdxC9 "a.md".toList, true) := by
  have h := claim9_read_failures
  refine ⟨?_, ?_, ?_⟩
  · exact (h.1 exIdxC9 exOldC9 exCurC9 exRfC9 "b.md".toList 3 "fresh".toList
      (by decide) (by decide) (by decide) (by decide)).trans (by decide)
  · exact h.2.1 exIdxC9 exOldC9 exCurC9 exRfC9 "a.md".toList 2
      (wf_runOps exOpsC9 (by decide)) (by decide) (by decide) (by decide)
      (by decide)
  · exact (h.2.2 exIdxC9 exOldC9 exRfC9 "a.md".toList 2 [("b.md".toList, 3)]
      (by decide) (by decide)).trans (by decide)

/-- Claim C10: `search` (and its `searchFiles` wrapper) is read-only — the
embedding threads the index state through every branch unchanged, mirroring
that the source method never assigns to `this.files`, `this.filesList` or
`this.wordIndex`. -/
theorem claim10_search_readonly (s : FileIndex) (q : List Char) (page : Int)
    (pp : Nat) (q2 : List Char) (page2 : Int) :
    (search s q page pp).1 = s ∧ (searchFiles s q2 page2).1 = s := by
  refine ⟨rfl, ?_⟩
  rw [searchFiles]
  by_cases h : (trimChars q2).length = 0
  · rw [if_pos h]
  · rw [if_neg h]
    rfl
